import Mathlib

/-!
Verification of the host-side JavaScript engine wrapper of libadblockplus
(`JsEngine` in `include/AdblockPlus/JsEngine.h`): the weak value store,
the event dispatcher, the timer trampoline, evaluation results and the
argument marshalling of bridged native calls.

The repository ships only the declarations (the header); the behaviour of
each member function is modelled from the specification, while the data
model (the `std::list<JsWeakValuesList>` store, the iterator-based
`JsWeakValuesID`, the `std::map`-based `EventMap`) follows the header.
-/

set_option autoImplicit false

namespace AdblockPlus

/-- A script value living in the engine's execution context (`JsValue` in
the source).  Values are opaque handles; we model the shapes the bridge
distinguishes, including the `undefined` placeholder used for unsupported
argument shapes. -/
inductive JsValue where
  | undefined
  | boolean (b : Bool)
  | number (n : Int)
  | str (s : String)
  | object (id : Nat)
  | function (id : Nat)
deriving DecidableEq, Repr

/-- `JsValueList` from the source: an ordered sequence of script values. -/
abbrev JsValueList := List JsValue

/-- One node of the weak value store (`struct JsWeakValuesList` holding
`std::vector<v8::Global<v8::Value>> values`).  A `std::list` node is an
independently allocated cell that never moves; `nodeId` models the node's
identity (its address), which is what a `std::list` iterator denotes. -/
structure JsWeakValuesList where
  nodeId : Nat
  values : JsValueList
deriving DecidableEq, Repr

/-- `JsWeakValuesLists  = std::list<JsWeakValuesList>` from the header. -/
abbrev JsWeakValuesLists := List JsWeakValuesList

/-- The opaque ID of a stored `JsValueList` (`class JsWeakValuesID`), whose
single field is a `JsWeakValuesLists::const_iterator`; we model the
iterator by the identity of the node it points to. -/
structure JsWeakValuesID where
  iterator : Nat
deriving DecidableEq, Repr

/-- Event callbacks are opaque `std::function` objects; we model them by
identity so that "which callback was invoked" is observable. -/
abbrev EventCallback := Nat

/-- `EventMap = std::map<std::string, EventCallback>`: a key-value map,
modelled as an association list with insert-or-assign semantics. -/
abbrev EventMap := List (String × EventCallback)

/-- The mutable state of one `JsEngine` instance: the weak value store
(plus the next fresh node identity), the event callback registry, and a
log of script-callback invocations performed by the timer trampoline. -/
structure JsEngineState where
  jsWeakValuesLists : JsWeakValuesLists
  nextNodeId : Nat
  eventCallbacks : EventMap
  invocations : List (JsValue × JsValueList)
deriving DecidableEq, Repr

/-- The engine state with nothing stored and nothing registered. -/
def initialState : JsEngineState :=
  { jsWeakValuesLists := [], nextNodeId := 0, eventCallbacks := [], invocations := [] }

/-! ## Weak value store -/

/-- Dereference an iterator: the values of the node it points to, or
`none` when the node has been erased (a dangling iterator). -/
def findWeakValues (id : JsWeakValuesID) : JsWeakValuesLists → Option JsValueList
  | [] => none
  | n :: rest => if n.nodeId = id.iterator then some n.values else findWeakValues id rest

/-- Erase the node an iterator points to (`std::list::erase`). -/
def eraseWeakValues (id : JsWeakValuesID) : JsWeakValuesLists → JsWeakValuesLists
  | [] => []
  | n :: rest => if n.nodeId = id.iterator then rest else n :: eraseWeakValues id rest

/-- Modelled from the spec: `JsEngine::StoreJsValues` (declared in the
header, body not in the repository) appends a new weak values list to the
internal sequence under the store's lock and returns an ID referencing the
new node.  The fresh node gets the next unused identity. -/
def StoreJsValues (values : JsValueList) (st : JsEngineState) :
    JsWeakValuesID × JsEngineState :=
  (⟨st.nextNodeId⟩,
    { st with
      jsWeakValuesLists :=
        st.jsWeakValuesLists ++ [⟨st.nextNodeId, values⟩],
      nextNodeId := st.nextNodeId + 1 })

/-- Modelled from the spec: `JsEngine::TakeJsValues` (declared in the
header, body not in the repository) removes and returns the referenced
list under the store's lock.  Taking with a dangling ID is a programming
error that must fail loudly in debug builds; we model the debug assertion
by returning `none`. -/
def TakeJsValues (id : JsWeakValuesID) (st : JsEngineState) :
    Option (JsValueList × JsEngineState) :=
  match findWeakValues id st.jsWeakValuesLists with
  | none => none
  | some vs =>
    some (vs, { st with jsWeakValuesLists := eraseWeakValues id st.jsWeakValuesLists })

/-- Well-formedness of the store: every node's identity is below the next
fresh identity, and node identities are pairwise distinct. -/
def WeakWF (st : JsEngineState) : Prop :=
  (∀ n ∈ st.jsWeakValuesLists, n.nodeId < st.nextNodeId) ∧
    (st.jsWeakValuesLists.map JsWeakValuesList.nodeId).Nodup

instance (st : JsEngineState) : Decidable (WeakWF st) := by
  unfold WeakWF; infer_instance

/-! ## Event dispatcher -/

/-- First-match lookup in the event registry (`std::map::find`). -/
def eventMapLookup (name : String) : EventMap → Option EventCallback
  | [] => none
  | (k, cb) :: rest => if k = name then some cb else eventMapLookup name rest

/-- Insert-or-assign in the event registry (`map[name] = callback`):
replaces the entry for `name` when present, appends it otherwise. -/
def eventMapSet (name : String) (callback : EventCallback) : EventMap → EventMap
  | [] => [(name, callback)]
  | (k, cb) :: rest =>
    if k = name then (name, callback) :: rest
    else (k, cb) :: eventMapSet name callback rest

/-- Erase from the event registry (`std::map::erase(name)`): removes the
entry for `name` when present, does nothing otherwise. -/
def eventMapErase (name : String) : EventMap → EventMap
  | [] => []
  | (k, cb) :: rest => if k = name then rest else (k, cb) :: eventMapErase name rest

/-- Modelled from the spec: `JsEngine::SetEventCallback` (declared in the
header, body not in the repository) upserts the callback for the event
name under the event-registry lock. -/
def SetEventCallback (eventName : String) (callback : EventCallback)
    (st : JsEngineState) : JsEngineState :=
  { st with eventCallbacks := eventMapSet eventName callback st.eventCallbacks }

/-- Modelled from the spec: `JsEngine::RemoveEventCallback` (declared in
the header, body not in the repository) deletes the entry for the event
name if present; no-op otherwise. -/
def RemoveEventCallback (eventName : String) (st : JsEngineState) : JsEngineState :=
  { st with eventCallbacks := eventMapErase eventName st.eventCallbacks }

/-- Modelled from the spec: `JsEngine::TriggerEvent` (declared in the
header, body not in the repository) looks the callback up (copying it out
under the lock) and invokes it outside the lock with the parameters; with
no registered callback it is a no-op, not an error.  The first component
records the invocations performed: the registered callback exactly once
with exactly `params`, or none. -/
def TriggerEvent (eventName : String) (params : JsValueList) (st : JsEngineState) :
    List (EventCallback × JsValueList) × JsEngineState :=
  match eventMapLookup eventName st.eventCallbacks with
  | none => ([], st)
  | some cb => ([(cb, params)], st)

/-! ## Interleaved store/take operations (for handle stability) -/

/-- One operation against the weak value store. -/
inductive WeakStoreOp where
  | store (values : JsValueList)
  | take (id : JsWeakValuesID)
deriving DecidableEq, Repr

/-- An operation is unrelated to handle `h`: any store, or a take of a
different handle. -/
def avoidsHandle (h : JsWeakValuesID) : WeakStoreOp → Bool
  | .store _ => true
  | .take id => id.iterator != h.iterator

/-- Run one store/take operation for its state effect (a failed take
leaves the state unchanged). -/
def applyWeakStoreOp (op : WeakStoreOp) (st : JsEngineState) : JsEngineState :=
  match op with
  | .store vs => (StoreJsValues vs st).2
  | .take id =>
    match TakeJsValues id st with
    | none => st
    | some (_, st') => st'

/-- Run a sequence of store/take operations. -/
def applyWeakStoreOps (ops : List WeakStoreOp) (st : JsEngineState) : JsEngineState :=
  ops.foldl (fun st op => applyWeakStoreOp op st) st

/-! ## Timer bridge -/

/-- The native timer request the bridge hands to the injected timer
strategy: the delay and the ID of the captured callback-plus-arguments
list. -/
structure TimerRequest where
  delay : Nat
  paramsID : JsWeakValuesID
deriving DecidableEq, Repr

/-- Modelled from the spec: `JsEngine::ScheduleTimer` (declared in the
header, body not in the repository) captures the script callback and its
argument tail as one weak values list via `StoreJsValues` and builds the
native timer request carrying the delay and the resulting ID. -/
def ScheduleTimer (delay : Nat) (callback : JsValue) (args : JsValueList)
    (st : JsEngineState) : TimerRequest × JsEngineState :=
  let r := StoreJsValues (callback :: args) st
  ({ delay := delay, paramsID := r.1 }, r.2)

/-- Modelled from the spec: `JsEngine::CallTimerTask` (declared in the
header, body not in the repository) re-enters the engine's execution
scope, consumes the stored list via `TakeJsValues` and invokes the
captured callback (the list head) with the captured arguments (the tail).
`none` models an invariant violation (dangling ID or an impossible empty
capture), which must fail loudly. -/
def CallTimerTask (timerParamsID : JsWeakValuesID) (st : JsEngineState) :
    Option JsEngineState :=
  match TakeJsValues timerParamsID st with
  | none => none
  | some (vals, st') =>
    match vals with
    | [] => none
    | callback :: args =>
      some { st' with invocations := st'.invocations ++ [(callback, args)] }

/-- Outcome of one firing of the timer strategy's trampoline. -/
inductive TrampolineResult where
  /-- The owning engine was already destroyed; the operation was silently
  dropped without touching the store or the callback. -/
  | discarded
  /-- The captured callback was invoked inside the re-entered scope,
  leaving the engine in the given state. -/
  | invoked (st : JsEngineState)
  /-- An internal invariant violation (e.g. a double take) failed loudly. -/
  | fault
deriving DecidableEq, Repr

/-- Modelled from the spec: the trampoline closure the bridge hands to the
timer strategy holds only a weak engine reference and the request; when it
fires it locks the weak reference (`none` = the engine is destroyed) and,
only if the engine is alive, runs `CallTimerTask`. -/
def fireTimerTrampoline (req : TimerRequest) (engine : Option JsEngineState) :
    TrampolineResult :=
  match engine with
  | none => .discarded
  | some st =>
    match CallTimerTask req.paramsID st with
    | none => .fault
    | some st' => .invoked st'

/-! ## Evaluation -/

/-- Result of `JsEngine::Evaluate`: either the value of the evaluated
expression or a failure carrying the engine's diagnostic message and the
optional filename label. -/
inductive JsEvalResult where
  | value (v : JsValue)
  | error (message : String) (filename : String)
deriving DecidableEq, Repr

/-- Modelled from the spec: `JsEngine::Evaluate` (declared in the header,
body not in the repository).  The scripting language's own
parsing/execution semantics are out of scope, so the engine's
compile-and-run step and its diagnostic message are parameters
(`compileRun source = none` means the source fails to parse or throws).
A failure is surfaced with the message and the filename label and the
engine state is left untouched, so the runtime stays usable. -/
def Evaluate (compileRun : String → Option JsValue)
    (errorMessage : String → String) (source : String) (filename : String)
    (st : JsEngineState) : JsEvalResult × JsEngineState :=
  match compileRun source with
  | some v => (.value v, st)
  | none => (.error (errorMessage source) filename, st)

/-! ## Argument marshalling -/

/-- A raw engine-level argument as seen by a bridged native callback
(one element of `v8::FunctionCallbackInfo`), including shapes the bridge
does not support. -/
inductive RawV8Value where
  | str (s : String)
  | number (n : Int)
  | boolean (b : Bool)
  | objectRef (id : Nat)
  | functionRef (id : Nat)
  | unsupported
deriving DecidableEq, Repr

/-- Marshal one raw argument into the native value representation;
unsupported shapes become the `undefined` placeholder instead of failing. -/
def convertRawValue : RawV8Value → JsValue
  | .str s => .str s
  | .number n => .number n
  | .boolean b => .boolean b
  | .objectRef id => .object id
  | .functionRef id => .function id
  | .unsupported => .undefined

/-- The part of `v8::FunctionCallbackInfo` the marshalling reads: the raw
call arguments in call order. -/
structure FunctionCallbackInfo where
  arguments : List RawV8Value
deriving DecidableEq, Repr

/-- Modelled from the spec: `JsEngine::ConvertArguments` (declared in the
header, body not in the repository) marshals the call's raw arguments into
the native value list, preserving order and count. -/
def ConvertArguments (info : FunctionCallbackInfo) : JsValueList :=
  info.arguments.map convertRawValue

/-! ### Store lemmas -/

theorem findWeakValues_append_fresh (k : Nat) (vs : JsValueList)
    (l : JsWeakValuesLists) (hfresh : ∀ n ∈ l, n.nodeId ≠ k) :
    findWeakValues ⟨k⟩ (l ++ [⟨k, vs⟩]) = some vs := by
  induction l with
  | nil => simp [findWeakValues]
  | cons n rest ih =>
    have hn : n.nodeId ≠ k := hfresh n (List.mem_cons_self n rest)
    simp only [List.cons_append, findWeakValues, hn, if_false]
    exact ih fun m hm => hfresh m (List.mem_cons_of_mem n hm)

theorem eraseWeakValues_append_fresh (k : Nat) (vs : JsValueList)
    (l : JsWeakValuesLists) (hfresh : ∀ n ∈ l, n.nodeId ≠ k) :
    eraseWeakValues ⟨k⟩ (l ++ [⟨k, vs⟩]) = l := by
  induction l with
  | nil => simp [eraseWeakValues]
  | cons n rest ih =>
    have hn : n.nodeId ≠ k := hfresh n (List.mem_cons_self n rest)
    simp only [List.cons_append, eraseWeakValues, hn, if_false, List.cons.injEq, true_and]
    exact ih fun m hm => hfresh m (List.mem_cons_of_mem n hm)

theorem weakWF_fresh (st : JsEngineState) (h : WeakWF st) :
    ∀ n ∈ st.jsWeakValuesLists, n.nodeId ≠ st.nextNodeId :=
  fun n hn => Nat.ne_of_lt (h.1 n hn)

/-- The store/take round trip on a well-formed state: taking right after
storing yields the stored list and restores the original sequence. -/
theorem take_store (vs : JsValueList) (st : JsEngineState) (h : WeakWF st) :
    TakeJsValues (StoreJsValues vs st).1 (StoreJsValues vs st).2 =
      some (vs, { st with nextNodeId := st.nextNodeId + 1 }) := by
  have hfresh := weakWF_fresh st h
  simp [StoreJsValues, TakeJsValues,
    findWeakValues_append_fresh st.nextNodeId vs st.jsWeakValuesLists hfresh,
    eraseWeakValues_append_fresh st.nextNodeId vs st.jsWeakValuesLists hfresh]

theorem findWeakValues_eq_none (id : JsWeakValuesID) (l : JsWeakValuesLists)
    (h : ∀ m ∈ l, m.nodeId ≠ id.iterator) : findWeakValues id l = none := by
  induction l with
  | nil => rfl
  | cons n rest ih =>
    have hn : n.nodeId ≠ id.iterator := h n (List.mem_cons_self n rest)
    simp only [findWeakValues, hn, if_false]
    exact ih fun m hm => h m (List.mem_cons_of_mem n hm)

theorem findWeakValues_erase_self (id : JsWeakValuesID) (l : JsWeakValuesLists)
    (hnodup : (l.map JsWeakValuesList.nodeId).Nodup) :
    findWeakValues id (eraseWeakValues id l) = none := by
  induction l with
  | nil => rfl
  | cons n rest ih =>
    simp only [List.map_cons, List.nodup_cons] at hnodup
    by_cases hn : n.nodeId = id.iterator
    · simp only [eraseWeakValues, hn, if_true]
      refine findWeakValues_eq_none id rest fun m hm => ?_
      intro hmk
      exact hnodup.1 (hn ▸ hmk ▸ List.mem_map_of_mem JsWeakValuesList.nodeId hm)
    · simp only [eraseWeakValues, hn, if_false, findWeakValues]
      exact ih hnodup.2

theorem findWeakValues_append_left (id : JsWeakValuesID) (l l' : JsWeakValuesLists)
    (v : JsValueList) (h : findWeakValues id l = some v) :
    findWeakValues id (l ++ l') = some v := by
  induction l with
  | nil => simp [findWeakValues] at h
  | cons n rest ih =>
    by_cases hn : n.nodeId = id.iterator
    · simp only [findWeakValues, hn, if_true] at h
      simp only [List.cons_append, findWeakValues, hn, if_true, h]
    · simp only [findWeakValues, hn, if_false] at h
      simp only [List.cons_append, findWeakValues, hn, if_false]
      exact ih h

theorem findWeakValues_erase_other (h id : JsWeakValuesID)
    (hne : id.iterator ≠ h.iterator) (l : JsWeakValuesLists) :
    findWeakValues h (eraseWeakValues id l) = findWeakValues h l := by
  induction l with
  | nil => rfl
  | cons n rest ih =>
    by_cases hn : n.nodeId = id.iterator
    · simp only [eraseWeakValues, hn, if_true, findWeakValues]
      rw [if_neg hne]
    · simp only [eraseWeakValues, hn, if_false, findWeakValues]
      by_cases hh : n.nodeId = h.iterator
      · simp only [hh, if_true]
      · simp only [hh, if_false]
        exact ih

theorem eraseWeakValues_sublist (id : JsWeakValuesID) (l : JsWeakValuesLists) :
    (eraseWeakValues id l).Sublist l := by
  induction l with
  | nil => simp [eraseWeakValues]
  | cons n rest ih =>
    by_cases hn : n.nodeId = id.iterator
    · simp only [eraseWeakValues, hn, if_true]
      exact List.sublist_cons_self n rest
    · simp only [eraseWeakValues, hn, if_false]
      exact ih.cons₂ n

theorem weakWF_store (vs : JsValueList) (st : JsEngineState) (h : WeakWF st) :
    WeakWF (StoreJsValues vs st).2 := by
  obtain ⟨hbound, hnodup⟩ := h
  constructor
  · intro n hn
    simp only [StoreJsValues] at hn
    rcases List.mem_append.mp hn with hmem | hmem
    · exact Nat.lt_trans (hbound n hmem) (Nat.lt_succ_self _)
    · rcases List.mem_singleton.mp hmem with rfl
      exact Nat.lt_succ_self _
  · simp only [StoreJsValues, List.map_append, List.map_cons, List.map_nil]
    rw [List.nodup_append]
    refine ⟨hnodup, List.nodup_singleton _, ?_⟩
    intro a ha hb
    rcases List.mem_singleton.mp hb with rfl
    rcases List.mem_map.mp ha with ⟨n, hn, hna⟩
    exact Nat.ne_of_lt (hbound n hn) hna

theorem weakWF_erase (id : JsWeakValuesID) (st : JsEngineState) (h : WeakWF st) :
    WeakWF { st with jsWeakValuesLists := eraseWeakValues id st.jsWeakValuesLists } := by
  obtain ⟨hbound, hnodup⟩ := h
  have hsub := eraseWeakValues_sublist id st.jsWeakValuesLists
  exact ⟨fun n hn => hbound n (hsub.subset hn), hnodup.sublist (hsub.map _)⟩

theorem weakStability_step (h : JsWeakValuesID) (vs : JsValueList) (op : WeakStoreOp)
    (st : JsEngineState) (hwf : WeakWF st)
    (hstored : findWeakValues h st.jsWeakValuesLists = some vs)
    (hop : avoidsHandle h op = true) :
    WeakWF (applyWeakStoreOp op st) ∧
      findWeakValues h (applyWeakStoreOp op st).jsWeakValuesLists = some vs := by
  cases op with
  | store vs' =>
    refine ⟨weakWF_store vs' st hwf, ?_⟩
    simp only [applyWeakStoreOp, StoreJsValues]
    exact findWeakValues_append_left h _ _ vs hstored
  | take id =>
    have hne : id.iterator ≠ h.iterator := by
      simpa [avoidsHandle, bne_iff_ne] using hop
    cases hfind : findWeakValues id st.jsWeakValuesLists with
    | none =>
      simp only [applyWeakStoreOp, TakeJsValues, hfind]
      exact ⟨hwf, hstored⟩
    | some w =>
      simp only [applyWeakStoreOp, TakeJsValues, hfind]
      refine ⟨weakWF_erase id st hwf, ?_⟩
      rw [findWeakValues_erase_other h id hne]
      exact hstored

theorem weakStability_fold (h : JsWeakValuesID) (vs : JsValueList)
    (ops : List WeakStoreOp) (st : JsEngineState) (hwf : WeakWF st)
    (hstored : findWeakValues h st.jsWeakValuesLists = some vs)
    (havoid : ∀ op ∈ ops, avoidsHandle h op = true) :
    WeakWF (applyWeakStoreOps ops st) ∧
      findWeakValues h (applyWeakStoreOps ops st).jsWeakValuesLists = some vs := by
  induction ops generalizing st with
  | nil => exact ⟨hwf, hstored⟩
  | cons op rest ih =>
    have hop := havoid op (List.mem_cons_self op rest)
    have hstep := weakStability_step h vs op st hwf hstored hop
    simpa [applyWeakStoreOps] using
      ih (applyWeakStoreOp op st) hstep.1 hstep.2
        fun o ho => havoid o (List.mem_cons_of_mem op ho)

/-! ### Event registry lemmas -/

theorem eventMapLookup_set_self (name : String) (callback : EventCallback)
    (m : EventMap) : eventMapLookup name (eventMapSet name callback m) = some callback := by
  induction m with
  | nil => simp [eventMapSet, eventMapLookup]
  | cons p rest ih =>
    obtain ⟨k, cb⟩ := p
    by_cases hk : k = name
    · simp [eventMapSet, hk, eventMapLookup]
    · simp only [eventMapSet, hk, if_false, eventMapLookup]
      exact ih

theorem eventMapErase_of_lookup_none (name : String) (m : EventMap)
    (h : eventMapLookup name m = none) : eventMapErase name m = m := by
  induction m with
  | nil => rfl
  | cons p rest ih =>
    obtain ⟨k, cb⟩ := p
    by_cases hk : k = name
    · simp [eventMapLookup, hk] at h
    · simp only [eventMapLookup, hk, if_false] at h
      simp only [eventMapErase, hk, if_false, List.cons.injEq, true_and]
      exact ih h

/-! ### Claim theorems -/

/-- C1: for every value list `vs`, calling `StoreJsValues vs` and then
`TakeJsValues` on the ID it returned yields exactly `vs` — same elements,
same order, same count: a store/take round trip is the identity on the
stored list. -/
theorem storeTake_roundtrip_identity (vs : JsValueList) (st : JsEngineState)
    (hwf : WeakWF st) :
    (TakeJsValues (StoreJsValues vs st).1 (StoreJsValues vs st).2).map Prod.fst =
      some vs := by
  rw [take_store vs st hwf]
  rfl

/-- Witness for C1 at a concrete state and value list. -/
theorem storeTake_roundtrip_identity_witness :
    (TakeJsValues (StoreJsValues [JsValue.number 3, JsValue.str "a"] initialState).1
        (StoreJsValues [JsValue.number 3, JsValue.str "a"] initialState).2).map Prod.fst =
      some [JsValue.number 3, JsValue.str "a"] :=
  storeTake_roundtrip_identity [JsValue.number 3, JsValue.str "a"] initialState (by decide)

/-- C2: once `TakeJsValues id` has consumed the list stored under `id`, a
second `TakeJsValues id` is detected as an invariant violation (modelled
as `none`, the debug assertion failing loudly); in particular it never
returns the previously released list as if it were still stored. -/
theorem double_take_detected (id : JsWeakValuesID) (st st' : JsEngineState)
    (vs : JsValueList) (hwf : WeakWF st)
    (h : TakeJsValues id st = some (vs, st')) :
    TakeJsValues id st' = none := by
  cases hfind : findWeakValues id st.jsWeakValuesLists with
  | none => simp [TakeJsValues, hfind] at h
  | some w =>
    simp only [TakeJsValues, hfind, Option.some.injEq, Prod.mk.injEq] at h
    rw [← h.2]
    simp only [TakeJsValues,
      findWeakValues_erase_self id st.jsWeakValuesLists hwf.2]

/-- Witness for C2: storing one list in the empty engine, taking it, and
taking again with the same ID fails. -/
theorem double_take_detected_witness :
    TakeJsValues ⟨0⟩
        { jsWeakValuesLists := [], nextNodeId := 1, eventCallbacks := [],
          invocations := [] } = none :=
  double_take_detected ⟨0⟩
    { jsWeakValuesLists := [⟨0, [JsValue.number 5]⟩], nextNodeId := 1,
      eventCallbacks := [], invocations := [] }
    { jsWeakValuesLists := [], nextNodeId := 1, eventCallbacks := [],
      invocations := [] }
    [JsValue.number 5] (by decide) (by rfl)

/-- C3: `SetEventCallback x B` after `SetEventCallback x A` replaces the
first registration, so `TriggerEvent x args` invokes only `B`, exactly
once, with exactly `args` (and changes no state). -/
theorem setEventCallback_replaces (x : String) (A B : EventCallback)
    (args : JsValueList) (st : JsEngineState) :
    TriggerEvent x args (SetEventCallback x B (SetEventCallback x A st)) =
      ([(B, args)], SetEventCallback x B (SetEventCallback x A st)) := by
  simp [TriggerEvent, SetEventCallback, eventMapLookup_set_self]

/-- C4: triggering an event name with no registered callback invokes no
callback and leaves the engine state unchanged — a no-op, not an error. -/
theorem triggerEvent_unregistered_noop (x : String) (args : JsValueList)
    (st : JsEngineState) (h : eventMapLookup x st.eventCallbacks = none) :
    TriggerEvent x args st = ([], st) := by
  simp [TriggerEvent, h]

/-- Witness for C4 at a concrete state with another event registered. -/
theorem triggerEvent_unregistered_noop_witness :
    TriggerEvent "gone" [JsValue.boolean true]
        { initialState with eventCallbacks := [("kept", 1)] } =
      ([], { initialState with eventCallbacks := [("kept", 1)] }) :=
  triggerEvent_unregistered_noop "gone" [JsValue.boolean true]
    { initialState with eventCallbacks := [("kept", 1)] } (by decide)

/-- C5: removing an event name that is not present in the registry is a
no-op: the whole engine state (in particular every other registration) is
unchanged. -/
theorem removeEventCallback_unregistered_noop (x : String) (st : JsEngineState)
    (h : eventMapLookup x st.eventCallbacks = none) :
    RemoveEventCallback x st = st := by
  unfold RemoveEventCallback
  rw [eventMapErase_of_lookup_none x st.eventCallbacks h]

/-- Witness for C5 at a concrete state with another event registered. -/
theorem removeEventCallback_unregistered_noop_witness :
    RemoveEventCallback "gone" { initialState with eventCallbacks := [("kept", 1)] } =
      { initialState with eventCallbacks := [("kept", 1)] } :=
  removeEventCallback_unregistered_noop "gone"
    { initialState with eventCallbacks := [("kept", 1)] } (by decide)

/-- C6: scheduling a timer captures the callback and its argument tail in
the weak value store; one firing of the trampoline while the engine is
alive consumes the stored list via `TakeJsValues` (the store is back to
its pre-schedule contents) and invokes exactly once, inside the re-entered
scope, exactly the originally captured callback with exactly the
originally captured arguments. -/
theorem timer_trampoline_invokes_once (d : Nat) (cb : JsValue)
    (args : JsValueList) (st : JsEngineState) (hwf : WeakWF st) :
    fireTimerTrampoline (ScheduleTimer d cb args st).1
        (some (ScheduleTimer d cb args st).2) =
      TrampolineResult.invoked
        { st with nextNodeId := st.nextNodeId + 1,
                  invocations := st.invocations ++ [(cb, args)] } := by
  have ht := take_store (cb :: args) st hwf
  simp [ScheduleTimer, fireTimerTrampoline, CallTimerTask, ht]

/-- Witness for C6 at the empty engine. -/
theorem timer_trampoline_invokes_once_witness :
    fireTimerTrampoline
        (ScheduleTimer 0 (JsValue.function 7) [JsValue.number 1] initialState).1
        (some (ScheduleTimer 0 (JsValue.function 7) [JsValue.number 1] initialState).2) =
      TrampolineResult.invoked
        { initialState with nextNodeId := 1,
                            invocations := [(JsValue.function 7, [JsValue.number 1])] } :=
  timer_trampoline_invokes_once 0 (JsValue.function 7) [JsValue.number 1]
    initialState (by decide)

/-- C7: when the trampoline fires after the owning engine has been
destroyed (the weak reference locks to `none`), the operation is silently
discarded: no store access, no callback invocation, and no fault. -/
theorem dead_runtime_trampoline_discards (req : TimerRequest) :
    fireTimerTrampoline req none = TrampolineResult.discarded ∧
      (∀ st' : JsEngineState,
        fireTimerTrampoline req none ≠ TrampolineResult.invoked st') ∧
      fireTimerTrampoline req none ≠ TrampolineResult.fault := by
  refine ⟨rfl, fun st' hinv => ?_, fun hfault => ?_⟩
  · simp [fireTimerTrampoline] at hinv
  · simp [fireTimerTrampoline] at hfault

/-- Witness for C7 at a concrete request. -/
theorem dead_runtime_trampoline_discards_witness :
    fireTimerTrampoline { delay := 0, paramsID := ⟨0⟩ } none =
      TrampolineResult.discarded :=
  (dead_runtime_trampoline_discards { delay := 0, paramsID := ⟨0⟩ }).1

/-- C8: evaluating a source string that fails to compile or run yields a
failure result that is distinguishable from every successful result
(including a successful `undefined`), carries the diagnostic message and
the filename label, and leaves the engine state unchanged, so the runtime
stays usable. -/
theorem evaluate_invalid_source_fails (compileRun : String → Option JsValue)
    (errorMessage : String → String) (source filename : String)
    (st : JsEngineState) (h : compileRun source = none) :
    Evaluate compileRun errorMessage source filename st =
        (JsEvalResult.error (errorMessage source) filename, st) ∧
      ∀ v : JsValue,
        JsEvalResult.error (errorMessage source) filename ≠ JsEvalResult.value v := by
  refine ⟨by simp [Evaluate, h], fun v hv => ?_⟩
  cases hv

/-- Witness for C8 at a concrete always-failing compile step. -/
theorem evaluate_invalid_source_fails_witness :
    Evaluate (fun _ => none) (fun _ => "SyntaxError: unexpected end of input")
        "foo(" "test.js" initialState =
      (JsEvalResult.error "SyntaxError: unexpected end of input" "test.js",
        initialState) :=
  (evaluate_invalid_source_fails (fun _ => none)
    (fun _ => "SyntaxError: unexpected end of input") "foo(" "test.js"
    initialState rfl).1

/-- C9: `ConvertArguments` returns a value list of the same length as the
call's argument list, whose `i`-th element is the marshalled `i`-th
argument (order and count preserved), and every unsupported argument shape
becomes the `undefined` placeholder rather than a failure. -/
theorem convertArguments_preserves_shape (info : FunctionCallbackInfo) :
    (ConvertArguments info).length = info.arguments.length ∧
      (∀ i : Nat,
        (ConvertArguments info)[i]? = (info.arguments[i]?).map convertRawValue) ∧
      ∀ i : Nat, info.arguments[i]? = some RawV8Value.unsupported →
        (ConvertArguments info)[i]? = some JsValue.undefined := by
  refine ⟨by simp [ConvertArguments], fun i => by simp [ConvertArguments],
    fun i hi => by simp [ConvertArguments, hi, convertRawValue]⟩

/-- Witness for C9 at a concrete argument list with an unsupported shape. -/
theorem convertArguments_preserves_shape_witness :
    (ConvertArguments { arguments := [RawV8Value.unsupported, RawV8Value.str "u"] })[0]? =
      some JsValue.undefined :=
  (convertArguments_preserves_shape
    { arguments := [RawV8Value.unsupported, RawV8Value.str "u"] }).2.2 0 (by rfl)

/-- C10: an outstanding ID `h` whose list `vs` is still stored survives
any sequence of stores and takes of other IDs: afterwards `TakeJsValues h`
still returns exactly `vs` — the `std::list` nodes are independently
stable, so unrelated insertions and removals never move or invalidate a
stored list. -/
theorem outstanding_handle_stable (h : JsWeakValuesID) (vs : JsValueList)
    (ops : List WeakStoreOp) (st : JsEngineState) (hwf : WeakWF st)
    (hstored : findWeakValues h st.jsWeakValuesLists = some vs)
    (havoid : ∀ op ∈ ops, avoidsHandle h op = true) :
    (TakeJsValues h (applyWeakStoreOps ops st)).map Prod.fst = some vs := by
  have hfold := weakStability_fold h vs ops st hwf hstored havoid
  simp [TakeJsValues, hfold.2]

/-- Witness for C10: a stored list survives an unrelated store and an
unrelated take. -/
theorem outstanding_handle_stable_witness :
    (TakeJsValues ⟨0⟩
        (applyWeakStoreOps
          [WeakStoreOp.store [JsValue.boolean false], WeakStoreOp.take ⟨1⟩]
          { jsWeakValuesLists := [⟨0, [JsValue.str "x"]⟩, ⟨1, [JsValue.str "y"]⟩],
            nextNodeId := 2, eventCallbacks := [], invocations := [] })).map Prod.fst =
      some [JsValue.str "x"] :=
  outstanding_handle_stable ⟨0⟩ [JsValue.str "x"]
    [WeakStoreOp.store [JsValue.boolean false], WeakStoreOp.take ⟨1⟩]
    { jsWeakValuesLists := [⟨0, [JsValue.str "x"]⟩, ⟨1, [JsValue.str "y"]⟩],
      nextNodeId := 2, eventCallbacks := [], invocations := [] }
    (by decide) (by decide) (by decide)

end AdblockPlus
